import Mathlib

/-!
Verification development for a small DFA-description language implementation.

The implementation under study is a recursive-descent parser over a character
stream, a three-stage referential-integrity validator, a serializer back to
the textual form, and a projection of an automaton into a labeled graph.

The embedding below models the character stream as a `List Char` threaded
through every scanning function (the source advances a peekable iterator in
place).  Strings are modeled as `List Char`.  The transition container (a
hash map keyed by `(state, symbol)` pairs in the source) is modeled as an
association list with in-place update on key collision, so lookup and
last-write-wins insertion semantics match; iteration order of the model is
insertion order.  The two looping scanners receive an explicit fuel argument
at their entry points, set to the remaining input length plus one; every
loop iteration consumes at least one character, so the fuel is never
exhausted on any reachable input.  Character classification follows the
ASCII behaviour of the source predicates.
-/

set_option maxRecDepth 4000

namespace Automata

abbrev Str : Type := List Char

abbrev TransMap : Type := List ((Str × Str) × Str)

/-- Word characters: alphanumeric or underscore, as in the source scanner. -/
def isWordChar (c : Char) : Bool := c.isAlphanum || c == '_'

/-- Model of the `whitespace` scanner: drop the maximal leading whitespace run. -/
def whitespace : List Char → List Char
  | [] => []
  | c :: cs => if c.isWhitespace then whitespace cs else c :: cs

/-- Take the maximal leading run of word characters. -/
def takeWord : List Char → Str × List Char
  | [] => ([], [])
  | c :: cs =>
    if isWordChar c then
      let p := takeWord cs
      (c :: p.1, p.2)
    else ([], c :: cs)

/-- Model of the `word` scanner: skip whitespace, take a word run, skip
trailing whitespace; returns the token and the remaining input. -/
def word (cs : List Char) : Str × List Char :=
  let p := takeWord (whitespace cs)
  (p.1, whitespace p.2)

/-- Error text used when an unexpected character is found. -/
def unexpectedSym (x : Char) (expected : Str) : Str :=
  ("Unexpected Symbol '".data) ++ [x] ++ ("' Expected ".data) ++ expected

/-- Loop body of the `list` combinator: read an item, then expect a comma
(continue) or a closing bracket (stop). -/
def listLoop : Nat → List Char → Except Str (List Str × List Char)
  | 0, _ => .error ("fuel exhausted".data)
  | fuel + 1, cs =>
    let p := word cs
    match p.2 with
    | ',' :: cs2 =>
      match listLoop fuel cs2 with
      | .ok q => .ok (p.1 :: q.1, q.2)
      | .error e => .error e
    | ']' :: cs2 => .ok ([p.1], cs2)
    | x :: _ => .error (unexpectedSym x (",".data))
    | [] => .error ("Unexpected End of File.".data)

/-- Model of the `list` combinator: a leading `[` then comma-separated words
until `]`. -/
def list (cs : List Char) : Except Str (List Str × List Char) :=
  match whitespace cs with
  | '[' :: cs1 => listLoop (cs1.length + 1) cs1
  | x :: _ => .error (unexpectedSym x ("[".data))
  | [] => .error ("Unexpected End of File.".data)

/-- Model of the `keyword` combinator: read one word, require it to equal the
expected keyword. -/
def keyword (cs : List Char) (kw : Str) : Except Str (List Char) :=
  let p := word cs
  if p.1 = kw then .ok p.2 else .error (("Expected ".data) ++ kw)

/-- Model of the `char` combinator: skip whitespace, consume exactly the
expected character, skip trailing whitespace. -/
def char (cs : List Char) (ch : Char) : Except Str (List Char) :=
  match whitespace cs with
  | x :: cs1 =>
    if x = ch then .ok (whitespace cs1)
    else .error (unexpectedSym x [ch])
  | [] => .error ("Unexpected End of file.".data)

/-- Section parser for `states = [...]`. -/
def states (cs : List Char) : Except Str (List Str × List Char) :=
  match keyword cs ("states".data) with
  | .error e => .error e
  | .ok cs =>
    match char cs '=' with
    | .error e => .error e
    | .ok cs => list cs

/-- Section parser for `alphabet = [...]`. -/
def alphabet (cs : List Char) : Except Str (List Str × List Char) :=
  match keyword cs ("alphabet".data) with
  | .error e => .error e
  | .ok cs =>
    match char cs '=' with
    | .error e => .error e
    | .ok cs => list cs

/-- Section parser for `starting_state = word`. -/
def starting_state (cs : List Char) : Except Str (Str × List Char) :=
  match keyword cs ("starting_state".data) with
  | .error e => .error e
  | .ok cs =>
    match char cs '=' with
    | .error e => .error e
    | .ok cs => .ok (word cs)

/-- Section parser for `accepting_states = [...]`. -/
def accepting_states (cs : List Char) : Except Str (List Str × List Char) :=
  match keyword cs ("accepting_states".data) with
  | .error e => .error e
  | .ok cs =>
    match char cs '=' with
    | .error e => .error e
    | .ok cs => list cs

/-- Insertion into the transition container: overwrite in place when the key
is already present, append otherwise (hash-map insert semantics). -/
def insertTM (m : TransMap) (k : Str × Str) (v : Str) : TransMap :=
  match m with
  | [] => [(k, v)]
  | e :: rest => if e.1 = k then (k, v) :: rest else e :: insertTM rest k v

/-- Lookup in the transition container. -/
def lookupTM (m : TransMap) (k : Str × Str) : Option Str :=
  match m with
  | [] => none
  | e :: rest => if e.1 = k then some e.2 else lookupTM rest k

/-- Loop body of the `transitions` section: while input remains, read
`source ',' symbol '=' destination ';'` lines; a `]` after the first word
stops the loop. -/
def transLoop : Nat → TransMap → List Char → Except Str (TransMap × List Char)
  | 0, _, _ => .error ("fuel exhausted".data)
  | fuel + 1, acc, cs =>
    match cs with
    | [] => .ok (acc, [])
    | c0 :: cs0 =>
      let p := word (c0 :: cs0)
      match p.2 with
      | ',' :: cs2 =>
        let q := word cs2
        match char q.2 '=' with
        | .error e => .error e
        | .ok cs3 =>
          let r := word cs3
          match char r.2 ';' with
          | .error e => .error e
          | .ok cs4 => transLoop fuel (insertTM acc (p.1, q.1) r.1) (whitespace cs4)
      | ']' :: cs2 => .ok (acc, cs2)
      | x :: _ => .error (unexpectedSym x ("',' or ']'".data))
      | [] => .error ("Unexpected End of File.".data)

/-- Section parser for `transitions =` followed by transition lines. -/
def transitions (cs : List Char) : Except Str (TransMap × List Char) :=
  match keyword cs ("transitions".data) with
  | .error e => .error e
  | .ok cs =>
    match char cs '=' with
    | .error e => .error e
    | .ok cs => transLoop (cs.length + 1) [] cs

/-- The validated automaton value. -/
structure DFA where
  states : List Str
  alphabet : List Str
  transition : TransMap
  starting_state : Str
  accepting_states : List Str
deriving DecidableEq

/-- One line of the aggregated accepting-state error report. -/
def accLine (x : Str) : Str :=
  ("Accepting State ".data) ++ x ++ (" is not a valid state.\n".data)

/-- One step of the transition-validation fold: the per-entry report names
each of the three components found invalid, then closes the line with the
full transition, exactly as in the source. -/
def transFoldStep (sts alph : List Str) (err : Str) (e : (Str × Str) × Str) : Str :=
  let err1 := if e.1.1 ∈ sts then err else
    err ++ ("Initial State ".data) ++ e.1.1 ++ (",".data)
  let err2 := if e.1.2 ∈ alph then err1 else
    err1 ++ (" alphabet ".data) ++ e.1.2 ++ (",".data)
  let err3 := if e.2 ∈ sts then err2 else
    err2 ++ (" Final state ".data) ++ e.2 ++ (",".data)
  if e.1.1 ∈ sts ∧ e.1.2 ∈ alph ∧ e.2 ∈ sts then err3
  else
    err3 ++ (" in Transition ".data) ++ e.1.1 ++ (",".data) ++ e.1.2 ++
      (" -> ".data) ++ e.2 ++ (" are invalid\n".data)

/-- The validation stages of `TryFrom`, applied to a fully parsed field set:
fail-fast start-state check, aggregated accepting-states check, aggregated
transitions check. -/
def validate (dfa : DFA) : Except Str DFA :=
  if dfa.starting_state ∈ dfa.states then
    let invalid_states := dfa.accepting_states.foldl
      (fun err x => if x ∈ dfa.states then err else err ++ accLine x) []
    if invalid_states = [] then
      let invalid_transitions :=
        dfa.transition.foldl (transFoldStep dfa.states dfa.alphabet) []
      if invalid_transitions = [] then .ok dfa else .error invalid_transitions
    else .error invalid_states
  else .error (dfa.starting_state ++ (" is not a valid State.".data))

/-- Model of `TryFrom<String> for DFA`: parse the five sections in order,
then validate. -/
def tryFrom (code : Str) : Except Str DFA :=
  match states code with
  | .error e => .error e
  | .ok s =>
    match alphabet s.2 with
    | .error e => .error e
    | .ok a =>
      match starting_state a.2 with
      | .error e => .error e
      | .ok st =>
        match accepting_states st.2 with
        | .error e => .error e
        | .ok ac =>
          match transitions ac.2 with
          | .error e => .error e
          | .ok tr =>
            validate { states := s.1, alphabet := a.1, transition := tr.1,
                       starting_state := st.1, accepting_states := ac.1 }

/-- Join a list of strings with a separator, as `Vec::join` does. -/
def joinSep (sep : Str) : List Str → Str
  | [] => []
  | [x] => x
  | x :: xs => x ++ sep ++ joinSep sep xs

/-- One serialized transition line. -/
def transLineOut (e : (Str × Str) × Str) : Str :=
  ("    ".data) ++ e.1.1 ++ (",".data) ++ e.1.2 ++ (" = ".data) ++ e.2 ++ (";".data)

/-- Model of `Into<String> for DFA`: render the five sections and join them
with newlines. -/
def intoString (dfa : DFA) : Str :=
  joinSep ("\n".data)
    [ ("states = [".data) ++ joinSep (", ".data) dfa.states ++ ("]".data),
      ("alphabet = [".data) ++ joinSep (", ".data) dfa.alphabet ++ ("]".data),
      ("starting_state = ".data) ++ dfa.starting_state,
      ("accepting_states = [".data) ++ joinSep (", ".data) dfa.accepting_states ++ ("]".data),
      ("transitions =".data),
      joinSep ("\n".data) (dfa.transition.map transLineOut) ]

/-- The graph projection of an automaton. -/
structure Graph where
  nodes : List Str
  adj_mat : List ((Str × Str) × List Str)
deriving DecidableEq

/-- The `entry(..).or_default().push(..)` step: append the symbol to the
label list of the `(source, destination)` key, creating the key if absent. -/
def pushAdj (m : List ((Str × Str) × List Str)) (k : Str × Str) (sym : Str) :
    List ((Str × Str) × List Str) :=
  match m with
  | [] => [(k, [sym])]
  | e :: rest => if e.1 = k then (e.1, e.2 ++ [sym]) :: rest else e :: pushAdj rest k sym

/-- Lookup in the adjacency container. -/
def lookupAdj (m : List ((Str × Str) × List Str)) (k : Str × Str) : Option (List Str) :=
  match m with
  | [] => none
  | e :: rest => if e.1 = k then some e.2 else lookupAdj rest k

/-- The loop body of `From<DFA> for Graph` as a function of the sequence in
which the transition entries are visited: each visited entry appends its
symbol to the edge keyed by its source and destination states. -/
def adjFromEntries (entries : TransMap) : List ((Str × Str) × List Str) :=
  entries.foldl (fun m e => pushAdj m (e.1.1, e.2) e.1.2) []

/-- Model of `From<DFA> for Graph` at a given iteration order: the source
iterates a hash map whose iteration order is unspecified and has discarded
declaration order, so the visited sequence `entries` can be any permutation
of the stored transition entries; nodes are the state list verbatim. -/
def graphFromDFAIn (dfa : DFA) (entries : TransMap) : Graph :=
  { nodes := dfa.states
    adj_mat := adjFromEntries entries }

/-- Model of `From<DFA> for Graph` at one admissible iteration order, the
model container's own order; the source program may visit the entries in
any other order. -/
def graphFromDFA (dfa : DFA) : Graph :=
  graphFromDFAIn dfa dfa.transition

/-- A valid two-transition automaton whose transitions are declared with
symbol a before symbol b, both between the same pair of states. -/
def pairDFA : DFA :=
  { states := [("q1").data, ("q2").data]
    alphabet := [("a").data, ("b").data]
    transition := [((("q1").data, ("a").data), ("q2").data),
                   ((("q1").data, ("b").data), ("q2").data)]
    starting_state := ("q1").data
    accepting_states := [("q2").data] }

/-- A run of whitespace characters. -/
def allWs (w : List Char) : Prop := ∀ c ∈ w, c.isWhitespace = true

/-- A token made of word characters only. -/
def wordTok (t : Str) : Prop := ∀ c ∈ t, isWordChar c = true

/-- The input does not begin with a whitespace character. -/
def noWsHead : List Char → Prop
  | [] => True
  | c :: _ => c.isWhitespace = false

/-- The input does not begin with a word character. -/
def noWordHead : List Char → Prop
  | [] => True
  | c :: _ => isWordChar c = false

/-- The aggregated accepting-states report: one line per accepting state
absent from the state list, in scan order. -/
def accReport (sts : List Str) (l : List Str) : Str :=
  (List.map accLine (l.filter (fun x => decide (x ∉ sts)))).flatten

/-- The aggregated transitions report: the concatenation, in container
order, of the per-entry reports. -/
def transReport (sts alph : List Str) (l : TransMap) : Str :=
  (l.map (transFoldStep sts alph [])).flatten

/-- The example document of the specification. -/
def exampleDoc : Str :=
  ("states = [q1, q2]\nalphabet = [a, b]\nstarting_state = q1\naccepting_states = [q2]\ntransitions =\n    q1,a = q2;\n    q1,b = q1;\n    q2,a = q1;\n    q2,b = q2;\n").data

/-- The automaton described by the example document. -/
def exampleDFA : DFA :=
  { states := [("q1").data, ("q2").data]
    alphabet := [("a").data, ("b").data]
    transition := [((("q1").data, ("a").data), ("q2").data),
                   ((("q1").data, ("b").data), ("q1").data),
                   ((("q2").data, ("a").data), ("q1").data),
                   ((("q2").data, ("b").data), ("q2").data)]
    starting_state := ("q1").data
    accepting_states := [("q2").data] }

/-- A field set whose starting state is invalid and which also contains an
invalid accepting state and an invalid transition. -/
def badStartDFA : DFA :=
  { states := [("q1").data]
    alphabet := [("a").data]
    transition := [((("q7").data, ("z").data), ("q8").data)]
    starting_state := ("q9").data
    accepting_states := [("q5").data] }

/-- A field set with a valid starting state and two invalid accepting
states. -/
def badAccDFA : DFA :=
  { states := [("q1").data]
    alphabet := [("a").data]
    transition := []
    starting_state := ("q1").data
    accepting_states := [("q3").data, ("q4").data] }

/-- A field set passing the first two stages with one fully invalid
transition entry. -/
def badTransDFA : DFA :=
  { states := [("q1").data]
    alphabet := [("a").data]
    transition := [((("q7").data, ("b").data), ("q8").data)]
    starting_state := ("q1").data
    accepting_states := [("q1").data] }

/-- A well-formed prefix whose transitions section is terminated by a
closing bracket and followed by further content. -/
def bracketDoc : Str :=
  ("states = [q1]\nalphabet = [a]\nstarting_state = q1\naccepting_states = [q1]\ntransitions = ] trailing garbage !!").data

/-- The symbols labeling transitions from a given source to a given
destination, in container order. -/
def symbolsBetween (l : TransMap) (sd : Str × Str) : List Str :=
  (l.filter (fun e => decide (e.1.1 = sd.1 ∧ e.2 = sd.2))).map (fun e => e.1.2)

/-- Count of non-whitespace characters. -/
def nonWsCount (cs : List Char) : Nat := (cs.filter (fun c => !c.isWhitespace)).length

instance instDecidableWordTok (t : Str) : Decidable (wordTok t) := by
  unfold wordTok; infer_instance

instance instDecidableAllWs (u : List Char) : Decidable (allWs u) := by
  unfold allWs; infer_instance

/-- The destination of the last declaration for a key: later entries take
priority over earlier ones. -/
def lastDest : TransMap → (Str × Str) → Option Str
  | [], _ => none
  | e :: ts, k =>
    match lastDest ts k with
    | some d => some d
    | none => if e.1 = k then some e.2 else none

/-- A transitions section declaring the same key twice with different
destinations. -/
def dupTrans : TransMap :=
  [((("q1").data, ("a").data), ("q2").data),
   ((("q1").data, ("a").data), ("q1").data)]

/-- A valid automaton (it satisfies all three invariants) whose
accepting-states list is empty. -/
def noAcceptDFA : DFA :=
  { states := [("q1").data]
    alphabet := [("a").data]
    transition := []
    starting_state := ("q1").data
    accepting_states := [] }

theorem ws_not_wordChar {c : Char} (h : c.isWhitespace = true) : isWordChar c = false := by
  have h' : c = ' ' ∨ c = '\t' ∨ c = '\r' ∨ c = '\n' := by
    simpa [Char.isWhitespace, or_assoc] using h
  rcases h' with h' | h' | h' | h' <;> subst h' <;> decide

theorem wordChar_not_ws {c : Char} (h : isWordChar c = true) : c.isWhitespace = false := by
  cases hws : c.isWhitespace with
  | false => rfl
  | true => rw [ws_not_wordChar hws] at h; exact absurd h (by simp)

theorem whitespace_suffix (cs : List Char) : whitespace cs <:+ cs := by
  induction cs with
  | nil => simp [whitespace]
  | cons c cs ih =>
    simp only [whitespace]
    split
    · exact ih.trans (List.suffix_cons c cs)
    · exact List.suffix_refl _

theorem takeWord_suffix (cs : List Char) : (takeWord cs).2 <:+ cs := by
  induction cs with
  | nil => simp [takeWord]
  | cons c cs ih =>
    simp only [takeWord]
    split
    · exact ih.trans (List.suffix_cons c cs)
    · exact List.suffix_refl _

theorem word_suffix (cs : List Char) : (word cs).2 <:+ cs := by
  unfold word
  exact ((whitespace_suffix _).trans (takeWord_suffix _)).trans (whitespace_suffix _)

theorem whitespace_noWsHead {cs : List Char} (h : noWsHead cs) : whitespace cs = cs := by
  cases cs with
  | nil => rfl
  | cons c cs => simp only [noWsHead] at h; simp [whitespace, h]

theorem whitespace_ws_append {w : List Char} (cs : List Char) (h : allWs w) :
    whitespace (w ++ cs) = whitespace cs := by
  induction w with
  | nil => simp
  | cons c w ih =>
    have hc : c.isWhitespace = true := h c (by simp)
    simp only [List.cons_append, whitespace, hc, if_true]
    exact ih fun c' hc' => h c' (by simp [hc'])

theorem whitespace_idem (cs : List Char) : whitespace (whitespace cs) = whitespace cs := by
  induction cs with
  | nil => rfl
  | cons c cs ih =>
    simp only [whitespace]
    split
    · exact ih
    · next h => simp [whitespace, h]

theorem whitespace_word_append {s : Str} {rest : List Char} (hs : wordTok s)
    (hr : noWsHead rest) : whitespace (s ++ rest) = s ++ rest := by
  cases s with
  | nil => simpa using whitespace_noWsHead hr
  | cons c s =>
    exact whitespace_noWsHead (by simp [noWsHead, wordChar_not_ws (hs c (by simp))])

theorem takeWord_append {t : Str} {rest : List Char} (ht : wordTok t) (hr : noWordHead rest) :
    takeWord (t ++ rest) = (t, rest) := by
  induction t with
  | nil =>
    cases rest with
    | nil => rfl
    | cons c cs => simp only [noWordHead] at hr; simp [takeWord, hr]
  | cons c t ih =>
    have hc : isWordChar c = true := ht c (by simp)
    have ih' := ih fun c' hc' => ht c' (by simp [hc'])
    simp [takeWord, hc, ih']

theorem noWordHead_ws_append {u : List Char} {rest : List Char} (hu : allWs u)
    (hr : noWordHead rest) : noWordHead (u ++ rest) := by
  cases u with
  | nil => simpa using hr
  | cons c u => simp [noWordHead, ws_not_wordChar (hu c (by simp))]

theorem takeWord_noWordHead {rest : List Char} (hr : noWordHead rest) :
    takeWord rest = ([], rest) := by
  cases rest with
  | nil => rfl
  | cons c cs => simp only [noWordHead] at hr; simp [takeWord, hr]

theorem word_append₁ {w t u rest : List Char} (hw : allWs w) (ht : wordTok t) (hu : allWs u)
    (hr1 : noWsHead rest) (hr2 : noWordHead rest) :
    word (w ++ (t ++ (u ++ rest))) = (t, rest) := by
  unfold word
  rw [whitespace_ws_append _ hw]
  cases t with
  | nil =>
    rw [List.nil_append, whitespace_ws_append _ hu, whitespace_noWsHead hr1,
      takeWord_noWordHead hr2]
    simp [whitespace_noWsHead hr1]
  | cons c t =>
    rw [whitespace_noWsHead
      (by simp [noWsHead, wordChar_not_ws (ht c (by simp))]),
      takeWord_append ht (noWordHead_ws_append hu hr2)]
    simp [whitespace_ws_append _ hu, whitespace_noWsHead hr1]

theorem word_append₂ {w t u rest : List Char} (hw : allWs w) (ht : wordTok t) (htne : t ≠ [])
    (hu : allWs u) (hune : u ≠ []) (hr1 : noWsHead rest) :
    word (w ++ (t ++ (u ++ rest))) = (t, rest) := by
  unfold word
  rw [whitespace_ws_append _ hw]
  cases t with
  | nil => exact absurd rfl htne
  | cons c t =>
    have hnwh : noWordHead (u ++ rest) := by
      cases u with
      | nil => exact absurd rfl hune
      | cons cu u => simp [noWordHead, ws_not_wordChar (hu cu (by simp))]
    rw [whitespace_noWsHead
      (by simp [noWsHead, wordChar_not_ws (ht c (by simp))]),
      takeWord_append ht hnwh]
    simp [whitespace_ws_append _ hu, whitespace_noWsHead hr1]

theorem char_split {w : List Char} {ch : Char} (tail : List Char) (hw : allWs w)
    (hch : ch.isWhitespace = false) :
    char (w ++ (ch :: tail)) ch = .ok (whitespace tail) := by
  unfold char
  rw [whitespace_ws_append _ hw, whitespace_noWsHead (by simp [noWsHead, hch])]
  simp

theorem char_append {w : List Char} {ch : Char} {u rest : List Char} (hw : allWs w)
    (hch : ch.isWhitespace = false) (hu : allWs u) (hr : noWsHead rest) :
    char (w ++ (ch :: (u ++ rest))) ch = .ok rest := by
  rw [char_split _ hw hch, whitespace_ws_append _ hu, whitespace_noWsHead hr]

theorem keyword_of_word {cs : List Char} {kw : Str} {rest : List Char}
    (h : word cs = (kw, rest)) : keyword cs kw = .ok rest := by
  simp [keyword, h]

theorem char_ok_suffix {cs : List Char} {ch : Char} {cs' : List Char}
    (h : char cs ch = .ok cs') : cs' <:+ cs := by
  unfold char at h
  rcases hws : whitespace cs with _ | ⟨x, cs1⟩ <;> rw [hws] at h
  · exact absurd h (by simp)
  · by_cases hx : x = ch
    · simp only [hx, if_true, Except.ok.injEq] at h
      subst h
      exact ((whitespace_suffix cs1).trans (List.suffix_cons x cs1)).trans
        (hws ▸ whitespace_suffix cs)
    · simp [hx] at h

theorem keyword_ok_suffix {cs : List Char} {kw : Str} {cs' : List Char}
    (h : keyword cs kw = .ok cs') : cs' <:+ cs := by
  by_cases heq : (word cs).1 = kw
  · simp only [keyword, heq, if_true, Except.ok.injEq] at h
    exact h ▸ word_suffix cs
  · simp [keyword, heq] at h

theorem foldl_acc (sts : List Str) (l : List Str) (e : Str) :
    l.foldl (fun err x => if x ∈ sts then err else err ++ accLine x) e
      = e ++ accReport sts l := by
  induction l generalizing e with
  | nil => simp [accReport]
  | cons x l ih =>
    by_cases hx : x ∈ sts
    · simp only [List.foldl_cons, if_pos hx, ih]
      simp [accReport, List.filter_cons, hx]
    · simp only [List.foldl_cons, if_neg hx, ih]
      simp [accReport, List.filter_cons, hx, List.append_assoc]

theorem accLine_ne_nil (x : Str) : accLine x ≠ [] := by
  intro h
  have hl := congrArg List.length h
  simp [accLine] at hl

theorem accReport_eq_nil (sts : List Str) (l : List Str) :
    accReport sts l = [] ↔ ∀ x ∈ l, x ∈ sts := by
  constructor
  · intro h x hx
    by_contra hnx
    have hmem : accLine x ∈ List.map accLine (l.filter (fun x => decide (x ∉ sts))) :=
      List.mem_map_of_mem _ (List.mem_filter.2 ⟨hx, by simp [hnx]⟩)
    exact accLine_ne_nil x ((List.flatten_eq_nil_iff.1 h) _ hmem)
  · intro h
    have hfil : l.filter (fun x => decide (x ∉ sts)) = [] :=
      List.filter_eq_nil_iff.2 fun a ha => by simp [h a ha]
    unfold accReport
    rw [hfil]
    rfl

theorem transFoldStep_shift (sts alph : List Str) (err : Str) (e : (Str × Str) × Str) :
    transFoldStep sts alph err e = err ++ transFoldStep sts alph [] e := by
  simp only [transFoldStep]
  split_ifs <;> simp [List.append_assoc]

theorem transFoldStep_valid (sts alph : List Str) (e : (Str × Str) × Str)
    (h : e.1.1 ∈ sts ∧ e.1.2 ∈ alph ∧ e.2 ∈ sts) :
    transFoldStep sts alph [] e = [] := by
  simp [transFoldStep, h.1, h.2.1, h.2.2]

theorem transFoldStep_invalid (sts alph : List Str) (e : (Str × Str) × Str)
    (h : ¬(e.1.1 ∈ sts ∧ e.1.2 ∈ alph ∧ e.2 ∈ sts)) :
    transFoldStep sts alph [] e ≠ [] := by
  simp only [transFoldStep, if_neg h]
  exact List.append_ne_nil_of_right_ne_nil _ (by decide)

theorem transFoldStep_eq_nil_iff (sts alph : List Str) (e : (Str × Str) × Str) :
    transFoldStep sts alph [] e = [] ↔ (e.1.1 ∈ sts ∧ e.1.2 ∈ alph ∧ e.2 ∈ sts) := by
  by_cases h : e.1.1 ∈ sts ∧ e.1.2 ∈ alph ∧ e.2 ∈ sts
  · simp [transFoldStep_valid sts alph e h, h]
  · simp [transFoldStep_invalid sts alph e h, h]

theorem foldl_trans (sts alph : List Str) (l : TransMap) (e : Str) :
    l.foldl (transFoldStep sts alph) e = e ++ transReport sts alph l := by
  induction l generalizing e with
  | nil => simp [transReport]
  | cons x l ih =>
    simp only [List.foldl_cons, ih, transFoldStep_shift sts alph e x]
    simp [transReport, List.append_assoc]

theorem transReport_eq_nil (sts alph : List Str) (l : TransMap) :
    transReport sts alph l = [] ↔
      ∀ e ∈ l, e.1.1 ∈ sts ∧ e.1.2 ∈ alph ∧ e.2 ∈ sts := by
  simp only [transReport, List.flatten_eq_nil_iff, List.mem_map,
    forall_exists_index, and_imp, forall_apply_eq_imp_iff₂]
  exact forall₂_congr fun e _ => transFoldStep_eq_nil_iff sts alph e

theorem validate_ok_iff (d d' : DFA) :
    validate d = .ok d' ↔
      d' = d ∧ d.starting_state ∈ d.states ∧
      (∀ x ∈ d.accepting_states, x ∈ d.states) ∧
      (∀ e ∈ d.transition, e.1.1 ∈ d.states ∧ e.1.2 ∈ d.alphabet ∧ e.2 ∈ d.states) := by
  simp only [validate, foldl_acc, foldl_trans, List.nil_append]
  constructor
  · intro h
    split_ifs at h with h1 h2 h3
    · cases h
      exact ⟨rfl, h1, (accReport_eq_nil _ _).1 h2, (transReport_eq_nil _ _ _).1 h3⟩
  · rintro ⟨rfl, h1, h2, h3⟩
    rw [if_pos h1, if_pos ((accReport_eq_nil _ _).2 h2),
      if_pos ((transReport_eq_nil _ _ _).2 h3)]

theorem tryFrom_ok_elim {code : Str} {dfa : DFA} (h : tryFrom code = .ok dfa) :
    ∃ s a st ac tr, states code = .ok s ∧ alphabet s.2 = .ok a ∧
      starting_state a.2 = .ok st ∧ accepting_states st.2 = .ok ac ∧
      transitions ac.2 = .ok tr ∧
      validate { states := s.1, alphabet := a.1, transition := tr.1,
                 starting_state := st.1, accepting_states := ac.1 } = .ok dfa := by
  unfold tryFrom at h
  rcases hs : states code with e | s <;> rw [hs] at h <;> dsimp only at h
  · exact Except.noConfusion h
  rcases ha : alphabet s.2 with e | a <;> rw [ha] at h <;> dsimp only at h
  · exact Except.noConfusion h
  rcases hst : starting_state a.2 with e | st <;> rw [hst] at h <;> dsimp only at h
  · exact Except.noConfusion h
  rcases hac : accepting_states st.2 with e | ac <;> rw [hac] at h <;> dsimp only at h
  · exact Except.noConfusion h
  rcases htr : transitions ac.2 with e | tr <;> rw [htr] at h <;> dsimp only at h
  · exact Except.noConfusion h
  exact ⟨s, a, st, ac, tr, rfl, ha, hst, hac, htr, h⟩

theorem exampleDoc_parses : tryFrom exampleDoc = .ok exampleDFA := by rfl

/-- C1: whenever `tryFrom` returns an automaton, that automaton satisfies
the three invariants: the starting state is a declared state, every
accepting state is a declared state, and every transition relates declared
states through a declared alphabet symbol; no automaton is produced
otherwise. -/
theorem c1_tryFrom_ok_invariants (code : Str) (dfa : DFA) (h : tryFrom code = .ok dfa) :
    dfa.starting_state ∈ dfa.states ∧
    (∀ x ∈ dfa.accepting_states, x ∈ dfa.states) ∧
    (∀ e ∈ dfa.transition,
      e.1.1 ∈ dfa.states ∧ e.1.2 ∈ dfa.alphabet ∧ e.2 ∈ dfa.states) := by
  obtain ⟨s, a, st, ac, tr, _, _, _, _, _, hv⟩ := tryFrom_ok_elim h
  obtain ⟨hd, h1, h2, h3⟩ := (validate_ok_iff _ _).1 hv
  subst hd
  exact ⟨h1, h2, h3⟩

theorem c1_witness :
    exampleDFA.starting_state ∈ exampleDFA.states ∧
    (∀ x ∈ exampleDFA.accepting_states, x ∈ exampleDFA.states) ∧
    (∀ e ∈ exampleDFA.transition,
      e.1.1 ∈ exampleDFA.states ∧ e.1.2 ∈ exampleDFA.alphabet ∧ e.2 ∈ exampleDFA.states) :=
  c1_tryFrom_ok_invariants exampleDoc exampleDFA (by rfl)

/-- C5: when the starting state is not among the declared states, validation
returns immediately with exactly the single error naming that state; the
later stages never run, whatever other violations are present. -/
theorem c5_start_state_fail_fast (d : DFA) (h : d.starting_state ∉ d.states) :
    validate d = .error (d.starting_state ++ (" is not a valid State.".data)) := by
  simp [validate, h]

theorem c5_witness :
    validate badStartDFA = .error (("q9 is not a valid State.").data) :=
  c5_start_state_fail_fast badStartDFA (by decide)

/-- C6: with a valid starting state and at least one invalid accepting
state, validation fails with the aggregated report holding one line per
invalid accepting state, each line naming that state. -/
theorem c6_accepting_aggregate (d : DFA) (h1 : d.starting_state ∈ d.states)
    (h2 : ∃ x ∈ d.accepting_states, x ∉ d.states) :
    validate d = .error (accReport d.states d.accepting_states) ∧
    accReport d.states d.accepting_states =
      (List.map accLine
        (d.accepting_states.filter (fun x => decide (x ∉ d.states)))).flatten := by
  have hne : accReport d.states d.accepting_states ≠ [] := by
    rcases h2 with ⟨x, hx, hnx⟩
    intro hc
    exact hnx ((accReport_eq_nil _ _).1 hc x hx)
  refine ⟨?_, rfl⟩
  simp [validate, h1, foldl_acc, hne]

theorem c6_witness :
    validate badAccDFA =
      .error (("Accepting State q3 is not a valid state.\nAccepting State q4 is not a valid state.\n").data) :=
  (c6_accepting_aggregate badAccDFA (by decide)
    ⟨("q3").data, by decide, by decide⟩).1

/-- C7: with the first two stages passed, each transition entry is tested
independently on its three components; the validation result is exactly
determined by the aggregated transitions report, which concatenates one
per-entry line, and that per-entry line is empty precisely when all three
components of the entry are valid. -/
theorem c7_transitions_aggregate (d : DFA) (h1 : d.starting_state ∈ d.states)
    (h2 : ∀ x ∈ d.accepting_states, x ∈ d.states) :
    validate d =
      (if transReport d.states d.alphabet d.transition = [] then .ok d
       else .error (transReport d.states d.alphabet d.transition)) ∧
    transReport d.states d.alphabet d.transition =
      (d.transition.map (transFoldStep d.states d.alphabet [])).flatten ∧
    (∀ e ∈ d.transition,
      transFoldStep d.states d.alphabet [] e = [] ↔
        (e.1.1 ∈ d.states ∧ e.1.2 ∈ d.alphabet ∧ e.2 ∈ d.states)) := by
  refine ⟨?_, rfl, fun e _ => transFoldStep_eq_nil_iff _ _ e⟩
  have hacc : accReport d.states d.accepting_states = [] := (accReport_eq_nil _ _).2 h2
  simp only [validate, foldl_acc, foldl_trans, List.nil_append, if_pos h1, hacc,
    if_pos rfl]
  exact if_pos trivial

theorem listLoop_ok_ne_nil : ∀ (fuel : Nat) (cs : List Char) (q : List Str × List Char),
    listLoop fuel cs = .ok q → q.1 ≠ [] := by
  intro fuel
  induction fuel with
  | zero => intro cs q h; exact absurd h (by simp [listLoop])
  | succ fuel ih =>
    intro cs q h
    simp only [listLoop] at h
    split at h
    · split at h
      · cases h; simp
      · exact Except.noConfusion h
    · cases h; simp
    · exact Except.noConfusion h
    · exact Except.noConfusion h

theorem list_ok_ne_nil {cs : List Char} {q : List Str × List Char}
    (h : list cs = .ok q) : q.1 ≠ [] := by
  unfold list at h
  split at h
  · exact listLoop_ok_ne_nil _ _ _ h
  · exact Except.noConfusion h
  · exact Except.noConfusion h

theorem states_ok_list {cs : List Char} {q : List Str × List Char}
    (h : states cs = .ok q) : ∃ cs', list cs' = .ok q := by
  unfold states at h
  split at h
  · exact Except.noConfusion h
  · split at h
    · exact Except.noConfusion h
    · exact ⟨_, h⟩

theorem alphabet_ok_list {cs : List Char} {q : List Str × List Char}
    (h : alphabet cs = .ok q) : ∃ cs', list cs' = .ok q := by
  unfold alphabet at h
  split at h
  · exact Except.noConfusion h
  · split at h
    · exact Except.noConfusion h
    · exact ⟨_, h⟩

theorem accepting_states_ok_list {cs : List Char} {q : List Str × List Char}
    (h : accepting_states cs = .ok q) : ∃ cs', list cs' = .ok q := by
  unfold accepting_states at h
  split at h
  · exact Except.noConfusion h
  · split at h
    · exact Except.noConfusion h
    · exact ⟨_, h⟩

/-- C9: the list combinator can only succeed with at least one element; in
particular the literal `[]` parses to the one-element list holding the
empty token, so a parsed document never declares an empty states, alphabet,
or accepting-states list. -/
theorem c9_list_never_empty :
    (∀ (cs : List Char) (q : List Str × List Char), list cs = .ok q → q.1 ≠ []) ∧
    list (("[]").data) = .ok ([([] : Str)], []) ∧
    (∀ (code : Str) (dfa : DFA), tryFrom code = .ok dfa →
      dfa.states ≠ [] ∧ dfa.alphabet ≠ [] ∧ dfa.accepting_states ≠ []) := by
  refine ⟨fun cs q h => list_ok_ne_nil h, by rfl, fun code dfa h => ?_⟩
  obtain ⟨s, a, st, ac, tr, hs, ha, _, hac, _, hv⟩ := tryFrom_ok_elim h
  obtain ⟨hd, -, -, -⟩ := (validate_ok_iff _ _).1 hv
  subst hd
  obtain ⟨cs1, hl1⟩ := states_ok_list hs
  obtain ⟨cs2, hl2⟩ := alphabet_ok_list ha
  obtain ⟨cs3, hl3⟩ := accepting_states_ok_list hac
  exact ⟨list_ok_ne_nil hl1, list_ok_ne_nil hl2, list_ok_ne_nil hl3⟩

theorem c9_witness :
    ([("q1").data] : List Str) ≠ [] ∧
    exampleDFA.states ≠ [] ∧ exampleDFA.alphabet ≠ [] ∧ exampleDFA.accepting_states ≠ [] :=
  ⟨c9_list_never_empty.1 (("[q1]").data) ([("q1").data], []) (by rfl),
   c9_list_never_empty.2.2 exampleDoc exampleDFA (by rfl)⟩

theorem c7_witness :
    validate badTransDFA =
      (if transReport badTransDFA.states badTransDFA.alphabet badTransDFA.transition = []
       then .ok badTransDFA
       else .error (transReport badTransDFA.states badTransDFA.alphabet badTransDFA.transition)) ∧
    transReport badTransDFA.states badTransDFA.alphabet badTransDFA.transition =
      (badTransDFA.transition.map
        (transFoldStep badTransDFA.states badTransDFA.alphabet [])).flatten ∧
    (∀ e ∈ badTransDFA.transition,
      transFoldStep badTransDFA.states badTransDFA.alphabet [] e = [] ↔
        (e.1.1 ∈ badTransDFA.states ∧ e.1.2 ∈ badTransDFA.alphabet ∧
          e.2 ∈ badTransDFA.states)) :=
  c7_transitions_aggregate badTransDFA (by decide) (by decide)

theorem takeWord_tok (cs : List Char) : wordTok (takeWord cs).1 := by
  induction cs with
  | nil => intro c hc; simp [takeWord] at hc
  | cons c cs ih =>
    by_cases hc : isWordChar c
    · intro x hx
      simp only [takeWord, hc, if_true] at hx
      rcases List.mem_cons.1 hx with hx | hx
      · exact hx ▸ hc
      · exact ih x hx
    · intro x hx; simp [takeWord, hc] at hx

theorem word_tok (cs : List Char) : wordTok (word cs).1 :=
  takeWord_tok (whitespace cs)

theorem listLoop_ok_tok : ∀ (fuel : Nat) (cs : List Char) (q : List Str × List Char),
    listLoop fuel cs = .ok q → ∀ t ∈ q.1, wordTok t := by
  intro fuel
  induction fuel with
  | zero => intro cs q h; exact absurd h (by simp [listLoop])
  | succ fuel ih =>
    intro cs q h
    simp only [listLoop] at h
    split at h
    · split at h
      · cases h
        intro t ht
        rcases List.mem_cons.1 ht with ht | ht
        · exact ht ▸ word_tok cs
        · exact ih _ _ (by assumption) t ht
      · exact Except.noConfusion h
    · cases h
      intro t ht
      rcases List.mem_cons.1 ht with ht | ht
      · exact ht ▸ word_tok cs
      · simp at ht
    · exact Except.noConfusion h
    · exact Except.noConfusion h

theorem list_ok_tok {cs : List Char} {q : List Str × List Char}
    (h : list cs = .ok q) : ∀ t ∈ q.1, wordTok t := by
  unfold list at h
  split at h
  · exact listLoop_ok_tok _ _ _ h
  · exact Except.noConfusion h
  · exact Except.noConfusion h

theorem starting_state_ok_tok {cs : List Char} {q : Str × List Char}
    (h : starting_state cs = .ok q) : wordTok q.1 := by
  unfold starting_state at h
  split at h
  · exact Except.noConfusion h
  · split at h
    · exact Except.noConfusion h
    · cases h; exact word_tok _

theorem insertTM_mem : ∀ (m : TransMap) (k : Str × Str) (v : Str)
    (e : (Str × Str) × Str), e ∈ insertTM m k v → e = (k, v) ∨ e ∈ m := by
  intro m k v
  induction m with
  | nil => intro e h; simp [insertTM] at h; left; exact h
  | cons x m ih =>
    intro e h
    simp only [insertTM] at h
    by_cases hx : x.1 = k
    · rw [if_pos hx] at h
      rcases List.mem_cons.1 h with he | hm
      · exact Or.inl he
      · exact Or.inr (List.mem_cons_of_mem x hm)
    · rw [if_neg hx] at h
      rcases List.mem_cons.1 h with he | hm
      · exact Or.inr (he ▸ List.mem_cons_self x m)
      · rcases ih e hm with he' | hm'
        · exact Or.inl he'
        · exact Or.inr (List.mem_cons_of_mem x hm')

theorem transLoop_ok_tok : ∀ (fuel : Nat) (acc : TransMap) (cs : List Char)
    (q : TransMap × List Char),
    (∀ e ∈ acc, wordTok e.1.1 ∧ wordTok e.1.2 ∧ wordTok e.2) →
    transLoop fuel acc cs = .ok q →
    ∀ e ∈ q.1, wordTok e.1.1 ∧ wordTok e.1.2 ∧ wordTok e.2 := by
  intro fuel
  induction fuel with
  | zero => intro acc cs q _ h; exact absurd h (by simp [transLoop])
  | succ fuel ih =>
    intro acc cs q hacc h
    cases cs with
    | nil => simp only [transLoop] at h; cases h; exact hacc
    | cons c0 cs0 =>
      simp only [transLoop] at h
      split at h
      · split at h
        · exact Except.noConfusion h
        · split at h
          · exact Except.noConfusion h
          · refine ih _ _ _ ?_ h
            intro e he
            rcases insertTM_mem _ _ _ e he with he' | he'
            · subst he'
              exact ⟨word_tok _, word_tok _, word_tok _⟩
            · exact hacc e he'
      · cases h; exact hacc
      · exact Except.noConfusion h
      · exact Except.noConfusion h

theorem transitions_ok_tok {cs : List Char} {q : TransMap × List Char}
    (h : transitions cs = .ok q) :
    ∀ e ∈ q.1, wordTok e.1.1 ∧ wordTok e.1.2 ∧ wordTok e.2 := by
  unfold transitions at h
  split at h
  · exact Except.noConfusion h
  · split at h
    · exact Except.noConfusion h
    · exact transLoop_ok_tok _ _ _ _ (by intro e he; simp at he) h

/-- C10: every identifier of an automaton produced by `tryFrom` is a word
token: it consists only of alphanumeric characters and underscores
(possibly empty), because every identifier comes from the word scanner. -/
theorem c10_identifiers_word_tokens (code : Str) (dfa : DFA) (h : tryFrom code = .ok dfa) :
    (∀ x ∈ dfa.states, wordTok x) ∧
    (∀ x ∈ dfa.alphabet, wordTok x) ∧
    wordTok dfa.starting_state ∧
    (∀ x ∈ dfa.accepting_states, wordTok x) ∧
    (∀ e ∈ dfa.transition, wordTok e.1.1 ∧ wordTok e.1.2 ∧ wordTok e.2) := by
  obtain ⟨s, a, st, ac, tr, hs, ha, hst, hac, htr, hv⟩ := tryFrom_ok_elim h
  obtain ⟨hd, -, -, -⟩ := (validate_ok_iff _ _).1 hv
  subst hd
  obtain ⟨cs1, hl1⟩ := states_ok_list hs
  obtain ⟨cs2, hl2⟩ := alphabet_ok_list ha
  obtain ⟨cs3, hl3⟩ := accepting_states_ok_list hac
  exact ⟨list_ok_tok hl1, list_ok_tok hl2, starting_state_ok_tok hst,
    list_ok_tok hl3, transitions_ok_tok htr⟩

theorem c10_witness :
    (∀ x ∈ exampleDFA.states, wordTok x) ∧
    (∀ x ∈ exampleDFA.alphabet, wordTok x) ∧
    wordTok exampleDFA.starting_state ∧
    (∀ x ∈ exampleDFA.accepting_states, wordTok x) ∧
    (∀ e ∈ exampleDFA.transition, wordTok e.1.1 ∧ wordTok e.1.2 ∧ wordTok e.2) :=
  c10_identifiers_word_tokens exampleDoc exampleDFA (by rfl)

theorem transLoop_ok_rest : ∀ (fuel : Nat) (acc : TransMap) (cs : List Char)
    (q : TransMap × List Char),
    transLoop fuel acc cs = .ok q → q.2 = [] ∨ ']' ∈ cs := by
  intro fuel
  induction fuel with
  | zero => intro acc cs q h; exact absurd h (by simp [transLoop])
  | succ fuel ih =>
    intro acc cs q h
    cases cs with
    | nil => simp only [transLoop] at h; cases h; left; rfl
    | cons c0 cs0 =>
      simp only [transLoop] at h
      split at h
      · next cs2 heq =>
        split at h
        · exact Except.noConfusion h
        · next cs3 heq3 =>
          split at h
          · exact Except.noConfusion h
          · next cs4 heq4 =>
            rcases ih _ _ _ h with hq | hmem
            · exact Or.inl hq
            · refine Or.inr ((word_suffix _).subset ?_)
              have m1 := (whitespace_suffix cs4).subset hmem
              have m2 := (char_ok_suffix heq4).subset m1
              have m3 := (word_suffix cs3).subset m2
              have m4 := (char_ok_suffix heq3).subset m3
              have m5 := (word_suffix cs2).subset m4
              exact heq ▸ List.mem_cons_of_mem ',' m5
      · next cs2 heq =>
        refine Or.inr ((word_suffix _).subset ?_)
        exact heq ▸ List.mem_cons_self ']' cs2
      · exact Except.noConfusion h
      · exact Except.noConfusion h

/-- C3 (amended): the transitions section is consumed until the input is
exhausted unless a closing bracket token ends it early: when the section
parser succeeds leaving input unconsumed, a closing bracket occurred in its
input; in particular an input free of closing brackets is consumed to
end-of-file. -/
theorem c3_transitions_terminator (cs : List Char) (q : TransMap × List Char)
    (h : transitions cs = .ok q) : q.2 = [] ∨ ']' ∈ cs := by
  unfold transitions at h
  split at h
  · exact Except.noConfusion h
  · next csk heqk =>
    split at h
    · exact Except.noConfusion h
    · next csc heqc =>
      rcases transLoop_ok_rest _ _ _ _ h with hq | hmem
      · exact Or.inl hq
      · exact Or.inr ((keyword_ok_suffix heqk).subset ((char_ok_suffix heqc).subset hmem))

theorem c3_witness :
    ((" rest").data : List Char) = [] ∨ ']' ∈ ("transitions = ] rest").data :=
  c3_transitions_terminator (("transitions = ] rest").data) ([], (" rest").data) (by rfl)

theorem c3_counterexample :
    tryFrom bracketDoc =
      .ok { states := [("q1").data], alphabet := [("a").data], transition := [],
            starting_state := ("q1").data, accepting_states := [("q1").data] } ∧
    transitions (("transitions = ] rest").data) = .ok ([], (" rest").data) :=
  ⟨by rfl, by rfl⟩

theorem lookupAdj_pushAdj (m : List ((Str × Str) × List Str)) (k k' : Str × Str) (sym : Str) :
    lookupAdj (pushAdj m k sym) k' =
      if k' = k then some (((lookupAdj m k).getD []) ++ [sym]) else lookupAdj m k' := by
  induction m with
  | nil =>
    by_cases hk : k' = k
    · subst hk; simp [pushAdj, lookupAdj]
    · have hk2 : ¬ (k = k') := fun h => hk h.symm
      simp [pushAdj, lookupAdj, hk, hk2]
  | cons e m ih =>
    by_cases he : e.1 = k
    · simp only [pushAdj, if_pos he]
      by_cases hk : k' = k
      · subst hk
        simp [lookupAdj, he]
      · have he' : ¬ (e.1 = k') := fun hc => hk (hc.symm.trans he)
        have hk2 : ¬ (k = k') := fun h => hk h.symm
        simp [lookupAdj, he', he, hk, hk2]
    · simp only [pushAdj, if_neg he]
      by_cases hk : k' = k
      · subst hk
        simp [lookupAdj, he, ih]
      · simp only [lookupAdj, ih, if_neg hk]

theorem symbolsBetween_cons (e : (Str × Str) × Str) (l : TransMap) (sd : Str × Str) :
    symbolsBetween (e :: l) sd =
      if e.1.1 = sd.1 ∧ e.2 = sd.2 then e.1.2 :: symbolsBetween l sd
      else symbolsBetween l sd := by
  by_cases h : e.1.1 = sd.1 ∧ e.2 = sd.2 <;>
    simp [symbolsBetween, List.filter_cons, h]

theorem lookupAdj_foldl_pushAdj : ∀ (l : TransMap) (acc : List ((Str × Str) × List Str))
    (k : Str × Str),
    lookupAdj (l.foldl (fun m e => pushAdj m (e.1.1, e.2) e.1.2) acc) k =
      match lookupAdj acc k with
      | some v => some (v ++ symbolsBetween l k)
      | none => if symbolsBetween l k = [] then none else some (symbolsBetween l k) := by
  intro l
  induction l with
  | nil =>
    intro acc k
    rcases h : lookupAdj acc k with _ | v <;> simp [symbolsBetween, h]
  | cons e l ih =>
    intro acc k
    simp only [List.foldl_cons, ih, lookupAdj_pushAdj, symbolsBetween_cons]
    by_cases hk : k = (e.1.1, e.2)
    · have hcond : e.1.1 = k.1 ∧ e.2 = k.2 := by rw [hk]; exact ⟨rfl, rfl⟩
      rw [if_pos hk, if_pos hcond, ← hk]
      rcases h : lookupAdj acc k with _ | v <;> simp
    · have hcond : ¬ (e.1.1 = k.1 ∧ e.2 = k.2) := by
        intro hc
        exact hk (Prod.ext hc.1.symm hc.2.symm)
      rw [if_neg hk, if_neg hcond]

/-- Counterexample to declaration-order edge labels: the hash map iterated
by the graph builder may visit the entries of `pairDFA` in reversed order
(a permutation of the stored entries), and that admissible visit order
labels the single edge with the symbols in the order b, a, not the
transition-declaration order a, b. -/
theorem c4_counterexample :
    List.Perm pairDFA.transition.reverse pairDFA.transition ∧
    lookupAdj (graphFromDFAIn pairDFA pairDFA.transition.reverse).adj_mat
        ((("q1").data), (("q2").data)) = some [("b").data, ("a").data] ∧
    ([("b").data, ("a").data] : List Str) ≠ [("a").data, ("b").data] :=
  ⟨List.reverse_perm pairDFA.transition, by rfl, by decide⟩

/-- C4 (amended): under every admissible iteration order of the transition
container (any permutation of its entries), the derived graph has the state
list verbatim as its nodes and maps each (source, destination) pair to the
sequence of symbols of the transitions between them — appended in the
iteration order, which is unspecified and need not be declaration order,
and grouped on one edge, never a separate edge per symbol (up to
reordering, the labels are exactly those transition symbols); on the
automaton of the section-6 example document every iteration order yields
nodes q1, q2 and the four expected singleton-labeled edges. -/
theorem c4_graph_projection_any_order (dfa : DFA) (entries : TransMap)
    (hperm : entries.Perm dfa.transition) :
    (graphFromDFAIn dfa entries).nodes = dfa.states ∧
    (∀ sd : Str × Str,
      lookupAdj (graphFromDFAIn dfa entries).adj_mat sd =
        (if symbolsBetween entries sd = [] then none
         else some (symbolsBetween entries sd)) ∧
      (symbolsBetween entries sd).Perm (symbolsBetween dfa.transition sd)) ∧
    (dfa = exampleDFA →
      lookupAdj (graphFromDFAIn dfa entries).adj_mat
          ((("q1").data), (("q2").data)) = some [("a").data] ∧
      lookupAdj (graphFromDFAIn dfa entries).adj_mat
          ((("q1").data), (("q1").data)) = some [("b").data] ∧
      lookupAdj (graphFromDFAIn dfa entries).adj_mat
          ((("q2").data), (("q1").data)) = some [("a").data] ∧
      lookupAdj (graphFromDFAIn dfa entries).adj_mat
          ((("q2").data), (("q2").data)) = some [("b").data]) := by
  have hmain : ∀ sd : Str × Str,
      lookupAdj (graphFromDFAIn dfa entries).adj_mat sd =
        (if symbolsBetween entries sd = [] then none
         else some (symbolsBetween entries sd)) ∧
      (symbolsBetween entries sd).Perm (symbolsBetween dfa.transition sd) := by
    intro sd
    constructor
    · have h := lookupAdj_foldl_pushAdj entries [] sd
      simpa [graphFromDFAIn, adjFromEntries, lookupAdj] using h
    · exact (hperm.filter _).map _
  refine ⟨rfl, hmain, ?_⟩
  intro hdfa
  subst hdfa
  have hsingle : ∀ (sd : Str × Str) (sym : Str),
      symbolsBetween exampleDFA.transition sd = [sym] →
      lookupAdj (graphFromDFAIn exampleDFA entries).adj_mat sd = some [sym] := by
    intro sd sym hsd
    obtain ⟨h1, h2⟩ := hmain sd
    rw [hsd] at h2
    have heq : symbolsBetween entries sd = [sym] := List.perm_singleton.1 h2
    rw [h1, heq]
    simp
  exact ⟨hsingle _ _ (by rfl), hsingle _ _ (by rfl),
    hsingle _ _ (by rfl), hsingle _ _ (by rfl)⟩

theorem c4_witness :
    (graphFromDFAIn exampleDFA exampleDFA.transition.reverse).nodes = exampleDFA.states ∧
    (∀ sd : Str × Str,
      lookupAdj (graphFromDFAIn exampleDFA exampleDFA.transition.reverse).adj_mat sd =
        (if symbolsBetween exampleDFA.transition.reverse sd = [] then none
         else some (symbolsBetween exampleDFA.transition.reverse sd)) ∧
      (symbolsBetween exampleDFA.transition.reverse sd).Perm
        (symbolsBetween exampleDFA.transition sd)) ∧
    (exampleDFA = exampleDFA →
      lookupAdj (graphFromDFAIn exampleDFA exampleDFA.transition.reverse).adj_mat
          ((("q1").data), (("q2").data)) = some [("a").data] ∧
      lookupAdj (graphFromDFAIn exampleDFA exampleDFA.transition.reverse).adj_mat
          ((("q1").data), (("q1").data)) = some [("b").data] ∧
      lookupAdj (graphFromDFAIn exampleDFA exampleDFA.transition.reverse).adj_mat
          ((("q2").data), (("q1").data)) = some [("a").data] ∧
      lookupAdj (graphFromDFAIn exampleDFA exampleDFA.transition.reverse).adj_mat
          ((("q2").data), (("q2").data)) = some [("b").data]) :=
  c4_graph_projection_any_order exampleDFA exampleDFA.transition.reverse
    (List.reverse_perm exampleDFA.transition)

theorem allWs_whitespace_nil {u : List Char} (hu : allWs u) : whitespace u = [] := by
  have h := whitespace_ws_append ([] : List Char) hu
  simpa using h

theorem word_whitespace (cs : List Char) : word (whitespace cs) = word cs := by
  unfold word
  rw [whitespace_idem]

theorem word_append_tok {t rest : List Char} (ht : wordTok t) (hr1 : noWsHead rest)
    (hr2 : noWordHead rest) : word (t ++ rest) = (t, rest) := by
  have h := @word_append₁ [] t [] rest
    (by intro c hc; cases hc) ht (by intro c hc; cases hc) hr1 hr2
  simpa using h

theorem word_append_tok_ws {t u rest : List Char} (ht : wordTok t) (hu : allWs u)
    (hr1 : noWsHead rest) (hr2 : noWordHead rest) : word (t ++ (u ++ rest)) = (t, rest) := by
  have h := @word_append₁ [] t u rest
    (by intro c hc; cases hc) ht hu hr1 hr2
  simpa using h

theorem word_nl {t u rest : List Char} (ht : wordTok t) (hu : allWs u)
    (hr1 : noWsHead rest) (hr2 : noWordHead rest) :
    word ('\n' :: (t ++ (u ++ rest))) = (t, rest) := by
  have h := @word_append₁ ['\n'] t u rest
    (by intro c hc; simp at hc; simp [hc]) ht hu hr1 hr2
  simpa using h

theorem char_eq_sp {rest : List Char} (ch : Char) (hch : ch.isWhitespace = false)
    (hr : noWsHead rest) : char (ch :: (' ' :: rest)) ch = .ok rest := by
  have h := @char_append [] ch [' '] rest
    (by intro c hc; cases hc) hch (by intro c hc; simp at hc; simp [hc]) hr
  simpa using h

theorem char_eq_direct {rest : List Char} (ch : Char) (hch : ch.isWhitespace = false)
    (hr : noWsHead rest) : char (ch :: rest) ch = .ok rest := by
  have h := @char_append [] ch [] rest
    (by intro c hc; cases hc) hch (by intro c hc; cases hc) hr
  simpa using h

theorem listLoop_render : ∀ (items : List Str) (w rest : List Char) (fuel : Nat),
    items ≠ [] → (∀ i ∈ items, wordTok i) → allWs w → items.length ≤ fuel →
    listLoop fuel (w ++ (joinSep (", ".data) items ++ (']' :: rest))) = .ok (items, rest) := by
  intro items
  induction items with
  | nil => intro w rest fuel hne; exact absurd rfl hne
  | cons i items ih =>
    intro w rest fuel _ htok hw hf
    obtain ⟨fuel, rfl⟩ : ∃ f, fuel = f + 1 :=
      ⟨fuel - 1, by
        have h1 : 1 ≤ (i :: items).length := by simp
        omega⟩
    cases items with
    | nil =>
      have hword : word (w ++ (i ++ (']' :: rest))) = (i, ']' :: rest) :=
        word_append₁ (u := []) hw (htok i (by simp)) (fun c hc => by cases hc)
          (by decide : (']').isWhitespace = false) (by decide : isWordChar ']' = false)
      simp only [joinSep, listLoop, hword]
    | cons i2 items =>
      have hshape : w ++ (joinSep (", ".data) (i :: i2 :: items) ++ (']' :: rest)) =
          w ++ (i ++ (',' :: (' ' :: (joinSep (", ".data) (i2 :: items) ++ (']' :: rest))))) := by
        simp [joinSep, List.append_assoc]
      have hword : word (w ++ (i ++ (',' :: (' ' :: (joinSep (", ".data) (i2 :: items) ++ (']' :: rest)))))) =
          (i, ',' :: (' ' :: (joinSep (", ".data) (i2 :: items) ++ (']' :: rest)))) := by
        have h := @word_append₁ w i []
          (',' :: (' ' :: (joinSep (", ".data) (i2 :: items) ++ (']' :: rest))))
          hw (htok i (by simp)) (fun c hc => by cases hc)
          (by decide : (',').isWhitespace = false) (by decide : isWordChar ',' = false)
        simpa using h
      have hrec := ih ([' ']) rest fuel (by simp)
        (fun x hx => htok x (by simp [hx]))
        (by intro c hc; simp at hc; simp [hc])
        (by simp only [List.length_cons] at hf ⊢; omega)
      rw [hshape]
      simp only [listLoop, hword]
      simp only [List.cons_append, List.nil_append] at hrec ⊢
      rw [hrec]

theorem joinSep_comma_length : ∀ items : List Str,
    items.length ≤ (joinSep (", ".data) items).length + 1 := by
  intro items
  induction items with
  | nil => simp [joinSep]
  | cons i items ih =>
    cases items with
    | nil => simp [joinSep]
    | cons i2 items2 =>
      simp only [joinSep, List.length_cons, List.length_append] at ih ⊢
      have h2 : (", ".data : List Char).length = 2 := rfl
      omega

theorem list_fuel_ge (items : List Str) (after : List Char) :
    items.length ≤ (joinSep (", ".data) items ++ (']' :: after)).length + 1 := by
  have h1 := joinSep_comma_length items
  simp only [List.length_append, List.length_cons] at h1 ⊢
  omega

theorem list_render (items : List Str) (after : List Char) (hne : items ≠ [])
    (htok : ∀ i ∈ items, wordTok i) :
    list ('[' :: (joinSep (", ".data) items ++ (']' :: after))) = .ok (items, after) := by
  have hws : whitespace ('[' :: (joinSep (", ".data) items ++ (']' :: after))) =
      '[' :: (joinSep (", ".data) items ++ (']' :: after)) :=
    whitespace_noWsHead (by decide : ('[').isWhitespace = false)
  unfold list
  simp only [hws]
  exact listLoop_render items [] after _ hne htok (fun c hc => by cases hc)
    (list_fuel_ge items after)

theorem list_render_nil (after : List Char) :
    list ('[' :: (']' :: after)) = .ok ([([] : Str)], after) := by
  have hws : whitespace ('[' :: (']' :: after)) = '[' :: (']' :: after) :=
    whitespace_noWsHead (by decide : ('[').isWhitespace = false)
  unfold list
  simp only [hws]
  have hword : word (']' :: after) = ([], ']' :: after) := by
    have h := @word_append_tok [] (']' :: after)
      (fun c hc => by cases hc)
      (by decide : (']').isWhitespace = false) (by decide : isWordChar ']' = false)
    simpa using h
  simp only [listLoop, hword]

theorem transLoop_nil {fuel : Nat} (acc : TransMap) (hf : 0 < fuel) :
    transLoop fuel acc [] = .ok (acc, []) := by
  cases fuel with
  | zero => exact absurd hf (by simp)
  | succ fuel => simp [transLoop]

theorem transLoop_unfold_cons (fuel : Nat) (acc : TransMap) (cs : List Char)
    (h : cs ≠ []) :
    transLoop (fuel + 1) acc cs =
      (match (word cs).2 with
       | ',' :: cs2 =>
         (match char (word cs2).2 '=' with
          | .error e => .error e
          | .ok cs3 =>
            (match char (word cs3).2 ';' with
             | .error e => .error e
             | .ok cs4 =>
               transLoop fuel (insertTM acc ((word cs).1, (word cs2).1) (word cs3).1)
                 (whitespace cs4)))
       | ']' :: cs2 => .ok (acc, cs2)
       | x :: _ => .error (unexpectedSym x ("',' or ']'".data))
       | [] => .error ("Unexpected End of File.".data)) := by
  cases cs with
  | nil => exact absurd rfl h
  | cons c0 cs0 => rfl

theorem noWsHead_word_append {d rest : List Char} (hd : wordTok d) (hr : noWsHead rest) :
    noWsHead (d ++ rest) := by
  cases d with
  | nil => simpa using hr
  | cons c d => simp [noWsHead, wordChar_not_ws (hd c (by simp))]

theorem allWs_append {a b : List Char} (ha : allWs a) (hb : allWs b) : allWs (a ++ b) := by
  intro c hc
  rcases List.mem_append.1 hc with hc | hc
  · exact ha c hc
  · exact hb c hc

theorem transLoop_step (fuel : Nat) (acc : TransMap) (s a d : Str) (tail : List Char)
    (hs : wordTok s) (ha : wordTok a) (hd : wordTok d) :
    transLoop (fuel + 1) acc
        (s ++ (',' :: (a ++ (' ' :: ('=' :: (' ' :: (d ++ (';' :: tail)))))))) =
      transLoop fuel (insertTM acc (s, a) d) (whitespace tail) := by
  have hne : s ++ (',' :: (a ++ (' ' :: ('=' :: (' ' :: (d ++ (';' :: tail))))))) ≠ [] := by
    cases s <;> simp
  have hword1 : word (s ++ (',' :: (a ++ (' ' :: ('=' :: (' ' :: (d ++ (';' :: tail)))))))) =
      (s, ',' :: (a ++ (' ' :: ('=' :: (' ' :: (d ++ (';' :: tail))))))) :=
    word_append_tok hs (by decide : (',').isWhitespace = false)
      (by decide : isWordChar ',' = false)
  have hword2 : word (a ++ (' ' :: ('=' :: (' ' :: (d ++ (';' :: tail)))))) =
      (a, '=' :: (' ' :: (d ++ (';' :: tail)))) := by
    have h := @word_append_tok_ws a [' ']
      ('=' :: (' ' :: (d ++ (';' :: tail)))) ha
      (by intro c hc; simp at hc; simp [hc])
      (by decide : ('=').isWhitespace = false) (by decide : isWordChar '=' = false)
    simpa using h
  have hchar1 : char ('=' :: (' ' :: (d ++ (';' :: tail)))) '=' = .ok (d ++ (';' :: tail)) :=
    char_eq_sp '=' (by decide)
      (noWsHead_word_append hd (by decide : (';').isWhitespace = false))
  have hword3 : word (d ++ (';' :: tail)) = (d, ';' :: tail) :=
    word_append_tok hd (by decide : (';').isWhitespace = false)
      (by decide : isWordChar ';' = false)
  have hchar2 : char (';' :: tail) ';' = .ok (whitespace tail) := by
    have h := @char_split [] ';' tail (fun c hc => by cases hc) (by decide)
    simpa using h
  rw [transLoop_unfold_cons fuel acc _ hne]
  simp only [hword1, hword2, hchar1, hword3, hchar2, whitespace_idem]

theorem nonWsCount_le_whitespace (cs : List Char) :
    nonWsCount cs ≤ (whitespace cs).length := by
  induction cs with
  | nil => simp [nonWsCount, whitespace]
  | cons c cs ih =>
    by_cases hc : c.isWhitespace
    · simpa [nonWsCount, whitespace, List.filter_cons, hc] using ih
    · simp only [whitespace, hc, if_false, nonWsCount, List.filter_cons]
      simp only [hc, Bool.not_false, if_true, List.length_cons]
      have : (cs.filter (fun c => !c.isWhitespace)).length ≤ cs.length :=
        List.length_filter_le _ _
      simp [List.length_cons]
      omega

theorem nonWsCount_append (a b : List Char) :
    nonWsCount (a ++ b) = nonWsCount a + nonWsCount b := by
  simp [nonWsCount, List.filter_append]

theorem transLine_nonWsCount (e : (Str × Str) × Str) : 1 ≤ nonWsCount (transLineOut e) := by
  unfold transLineOut
  rw [nonWsCount_append]
  have h2 : nonWsCount (";".data) = 1 := rfl
  omega

theorem lines_nonWsCount : ∀ ts : TransMap,
    ts.length ≤ nonWsCount (joinSep ("\n".data) (ts.map transLineOut)) := by
  intro ts
  induction ts with
  | nil => simp [joinSep, nonWsCount]
  | cons e ts ih =>
    cases ts with
    | nil =>
      simpa [joinSep] using transLine_nonWsCount e
    | cons e2 ts2 =>
      have hline := transLine_nonWsCount e
      simp only [List.map_cons, joinSep, List.length_cons] at ih ⊢
      rw [nonWsCount_append, nonWsCount_append]
      omega

theorem allWs_spaces : allWs ("    ".data) := by
  intro c hc
  have hc' : c = ' ' := by simpa using hc
  simp [hc']

theorem whitespace_word_comma {s : Str} (X : List Char) (hs : wordTok s) :
    whitespace (s ++ (',' :: X)) = s ++ (',' :: X) := by
  apply whitespace_word_append hs
  show (',').isWhitespace = false
  decide

theorem transLoop_render : ∀ (ts : TransMap) (fuel : Nat) (acc : TransMap) (u : List Char),
    allWs u → (∀ e ∈ ts, wordTok e.1.1 ∧ wordTok e.1.2 ∧ wordTok e.2) →
    ts.length < fuel →
    transLoop fuel acc (whitespace (u ++ joinSep ("\n".data) (ts.map transLineOut))) =
      .ok (ts.foldl (fun m e => insertTM m e.1 e.2) acc, []) := by
  intro ts
  induction ts with
  | nil =>
    intro fuel acc u hu htok hf
    simp only [List.map_nil, joinSep, List.append_nil]
    rw [allWs_whitespace_nil hu, transLoop_nil acc hf]
    simp
  | cons e ts ih =>
    intro fuel acc u hu htok hf
    obtain ⟨fuel, rfl⟩ : ∃ f, fuel = f + 1 := ⟨fuel - 1, by omega⟩
    have hs := (htok e (by simp)).1
    have ha := (htok e (by simp)).2.1
    have hd := (htok e (by simp)).2.2
    cases ts with
    | nil =>
      have hshape : u ++ joinSep ("\n".data) ([e].map transLineOut) =
          (u ++ ("    ".data)) ++
            (e.1.1 ++ (',' :: (e.1.2 ++ (' ' :: ('=' :: (' ' :: (e.2 ++ (';' :: ([] : List Char))))))))) := by
        simp [joinSep, transLineOut, List.append_assoc]
      rw [hshape,
        whitespace_ws_append _ (allWs_append hu allWs_spaces),
        whitespace_word_comma _ hs,
        transLoop_step fuel acc e.1.1 e.1.2 e.2 [] hs ha hd]
      rw [show whitespace ([] : List Char) = [] from rfl,
        transLoop_nil _ (by simp only [List.length_cons, List.length_nil] at hf; omega)]
      simp
    | cons e2 ts2 =>
      have hshape : u ++ joinSep ("\n".data) ((e :: e2 :: ts2).map transLineOut) =
          (u ++ ("    ".data)) ++
            (e.1.1 ++ (',' :: (e.1.2 ++ (' ' :: ('=' :: (' ' ::
              (e.2 ++ (';' :: ('\n' :: joinSep ("\n".data) ((e2 :: ts2).map transLineOut)))))))))) := by
        simp [joinSep, transLineOut, List.append_assoc]
      rw [hshape,
        whitespace_ws_append _ (allWs_append hu allWs_spaces),
        whitespace_word_comma _ hs,
        transLoop_step fuel acc e.1.1 e.1.2 e.2 _ hs ha hd]
      have hrec := ih fuel (insertTM acc (e.1.1, e.1.2) e.2) (['\n'])
        (by intro c hc; simp at hc; simp [hc])
        (fun x hx => htok x (by simp [hx]))
        (by simp only [List.length_cons] at hf ⊢; omega)
      simp only [List.cons_append, List.nil_append] at hrec
      rw [hrec]
      simp

theorem wordTok_of_all {t : Str} (h : decide (wordTok t) = true) :
    wordTok t := of_decide_eq_true h

theorem transitions_render (ts : TransMap) (u : List Char) (hu : allWs u)
    (htok : ∀ e ∈ ts, wordTok e.1.1 ∧ wordTok e.1.2 ∧ wordTok e.2) :
    transitions
        (u ++ (("transitions =".data) ++
          ('\n' :: joinSep ("\n".data) (ts.map transLineOut)))) =
      .ok (ts.foldl (fun m e => insertTM m e.1 e.2) [], []) := by
  have hshape : u ++ (("transitions =".data) ++
        ('\n' :: joinSep ("\n".data) (ts.map transLineOut))) =
      u ++ (("transitions".data) ++
        ([' '] ++ ('=' :: ('\n' :: joinSep ("\n".data) (ts.map transLineOut))))) := by
    rfl
  have hword : word (u ++ (("transitions".data) ++
        ([' '] ++ ('=' :: ('\n' :: joinSep ("\n".data) (ts.map transLineOut)))))) =
      (("transitions".data), '=' :: ('\n' :: joinSep ("\n".data) (ts.map transLineOut))) :=
    word_append₁ hu (wordTok_of_all (by rfl))
      (by intro c hc; simp at hc; simp [hc])
      (by decide : ('=').isWhitespace = false) (by decide : isWordChar '=' = false)
  have hkw : keyword (u ++ (("transitions =".data) ++
        ('\n' :: joinSep ("\n".data) (ts.map transLineOut)))) ("transitions".data) =
      .ok ('=' :: ('\n' :: joinSep ("\n".data) (ts.map transLineOut))) := by
    rw [hshape]
    exact keyword_of_word hword
  have hchar : char ('=' :: ('\n' :: joinSep ("\n".data) (ts.map transLineOut))) '=' =
      .ok (whitespace ('\n' :: joinSep ("\n".data) (ts.map transLineOut))) := by
    have h := @char_split [] '='
      ('\n' :: joinSep ("\n".data) (ts.map transLineOut))
      (fun c hc => by cases hc) (by decide)
    simpa using h
  have hfuel : ts.length <
      (whitespace ('\n' :: joinSep ("\n".data) (ts.map transLineOut))).length + 1 := by
    have h1 := lines_nonWsCount ts
    have h2 := nonWsCount_le_whitespace ('\n' :: joinSep ("\n".data) (ts.map transLineOut))
    have h3 : nonWsCount ('\n' :: joinSep ("\n".data) (ts.map transLineOut)) =
        nonWsCount (joinSep ("\n".data) (ts.map transLineOut)) := by
      rw [show ('\n' :: joinSep ("\n".data) (ts.map transLineOut)) =
          ['\n'] ++ joinSep ("\n".data) (ts.map transLineOut) from rfl,
        nonWsCount_append]
      have h4 : nonWsCount ['\n'] = 0 := rfl
      omega
    omega
  have hloop := transLoop_render ts
    ((whitespace ('\n' :: joinSep ("\n".data) (ts.map transLineOut))).length + 1)
    [] ['\n'] (by intro c hc; simp at hc; simp [hc]) htok hfuel
  simp only [List.cons_append, List.nil_append] at hloop
  unfold transitions
  rw [hkw]
  dsimp only
  rw [hchar]
  dsimp only
  exact hloop

theorem lookupTM_insertTM (m : TransMap) (k : Str × Str) (v : Str) (k' : Str × Str) :
    lookupTM (insertTM m k v) k' = if k' = k then some v else lookupTM m k' := by
  induction m with
  | nil =>
    by_cases hk : k' = k
    · subst hk; simp [insertTM, lookupTM]
    · have hk2 : ¬ (k = k') := fun h => hk h.symm
      simp [insertTM, lookupTM, hk, hk2]
  | cons e m ih =>
    by_cases he : e.1 = k
    · simp only [insertTM, if_pos he]
      by_cases hk : k' = k
      · subst hk; simp [lookupTM]
      · have hk2 : ¬ (k = k') := fun h => hk h.symm
        have he' : ¬ (e.1 = k') := fun hc => hk (hc.symm.trans he)
        simp [lookupTM, hk, hk2, he']
    · simp only [insertTM, if_neg he]
      by_cases hk : k' = k
      · subst hk
        simp [lookupTM, he, ih]
      · simp only [lookupTM, ih, if_neg hk]

theorem lookupTM_foldl : ∀ (ts : TransMap) (acc : TransMap) (k : Str × Str),
    lookupTM (ts.foldl (fun m e => insertTM m e.1 e.2) acc) k =
      match lastDest ts k with
      | some d => some d
      | none => lookupTM acc k := by
  intro ts
  induction ts with
  | nil => intro acc k; simp [lastDest]
  | cons e ts ih =>
    intro acc k
    simp only [List.foldl_cons, ih, lookupTM_insertTM, lastDest]
    rcases h : lastDest ts k with _ | d
    · dsimp only
      by_cases he : e.1 = k
      · rw [if_pos he, if_pos he.symm]
      · rw [if_neg he, if_neg (fun hc => he hc.symm)]
    · rfl

/-- C8: a transitions section built from any sequence of declaration lines
parses to the container obtained by inserting each declaration in order
with overwrite-on-collision; consequently the retained destination of any
key is the one of its last declaration, and a duplicate declaration is not
an error. -/
theorem c8_last_declaration_wins (ts : TransMap)
    (htok : ∀ e ∈ ts, wordTok e.1.1 ∧ wordTok e.1.2 ∧ wordTok e.2) :
    transitions (("transitions =".data) ++
        ('\n' :: joinSep ("\n".data) (ts.map transLineOut))) =
      .ok (ts.foldl (fun m e => insertTM m e.1 e.2) [], []) ∧
    ∀ k : Str × Str,
      lookupTM (ts.foldl (fun m e => insertTM m e.1 e.2) []) k = lastDest ts k := by
  constructor
  · have h := transitions_render ts [] (by intro c hc; cases hc) htok
    simpa using h
  · intro k
    rw [lookupTM_foldl]
    rcases h : lastDest ts k with _ | d <;> rfl

theorem c8_witness :
    transitions (("transitions =".data) ++
        ('\n' :: joinSep ("\n".data) (dupTrans.map transLineOut))) =
      .ok (dupTrans.foldl (fun m e => insertTM m e.1 e.2) [], []) ∧
    lookupTM (dupTrans.foldl (fun m e => insertTM m e.1 e.2) [])
        ((("q1").data, ("a").data)) = lastDest dupTrans ((("q1").data, ("a").data)) ∧
    lastDest dupTrans ((("q1").data, ("a").data)) = some (("q1").data) :=
  ⟨(c8_last_declaration_wins dupTrans (by decide)).1,
   (c8_last_declaration_wins dupTrans (by decide)).2 ((("q1").data, ("a").data)),
   by rfl⟩

theorem states_render (items : List Str) (after : List Char) (hne : items ≠ [])
    (htok : ∀ i ∈ items, wordTok i) :
    states (("states = [".data) ++ (joinSep (", ".data) items ++ (']' :: after))) =
      .ok (items, after) := by
  have hshape : ("states = [".data) ++ (joinSep (", ".data) items ++ (']' :: after)) =
      ("states".data) ++
        ([' '] ++ ('=' :: (' ' :: ('[' :: (joinSep (", ".data) items ++ (']' :: after)))))) := rfl
  have hword : word (("states".data) ++
        ([' '] ++ ('=' :: (' ' :: ('[' :: (joinSep (", ".data) items ++ (']' :: after))))))) =
      (("states".data), '=' :: (' ' :: ('[' :: (joinSep (", ".data) items ++ (']' :: after))))) :=
    word_append_tok_ws (wordTok_of_all (by rfl))
      (by intro c hc; simp at hc; simp [hc])
      (by decide : ('=').isWhitespace = false) (by decide : isWordChar '=' = false)
  have hkw : keyword (("states = [".data) ++ (joinSep (", ".data) items ++ (']' :: after)))
      ("states".data) =
      .ok ('=' :: (' ' :: ('[' :: (joinSep (", ".data) items ++ (']' :: after))))) := by
    rw [hshape]
    exact keyword_of_word hword
  have hchar : char ('=' :: (' ' :: ('[' :: (joinSep (", ".data) items ++ (']' :: after))))) '=' =
      .ok ('[' :: (joinSep (", ".data) items ++ (']' :: after))) :=
    char_eq_sp '=' (by decide) (by decide : ('[').isWhitespace = false)
  unfold states
  rw [hkw]
  dsimp only
  rw [hchar]
  dsimp only
  exact list_render items after hne htok

theorem alphabet_render_nl (items : List Str) (after : List Char) (hne : items ≠ [])
    (htok : ∀ i ∈ items, wordTok i) :
    alphabet ('\n' :: (("alphabet = [".data) ++ (joinSep (", ".data) items ++ (']' :: after)))) =
      .ok (items, after) := by
  have hword : word (['\n'] ++ (("alphabet".data) ++
        ([' '] ++ ('=' :: (' ' :: ('[' :: (joinSep (", ".data) items ++ (']' :: after)))))))) =
      (("alphabet".data), '=' :: (' ' :: ('[' :: (joinSep (", ".data) items ++ (']' :: after))))) :=
    word_append₁ (by intro c hc; simp at hc; simp [hc]) (wordTok_of_all (by rfl))
      (by intro c hc; simp at hc; simp [hc])
      (by decide : ('=').isWhitespace = false) (by decide : isWordChar '=' = false)
  have hkw : keyword
      ('\n' :: (("alphabet = [".data) ++ (joinSep (", ".data) items ++ (']' :: after))))
      ("alphabet".data) =
      .ok ('=' :: (' ' :: ('[' :: (joinSep (", ".data) items ++ (']' :: after))))) := by
    have h := keyword_of_word hword
    simpa using h
  have hchar : char ('=' :: (' ' :: ('[' :: (joinSep (", ".data) items ++ (']' :: after))))) '=' =
      .ok ('[' :: (joinSep (", ".data) items ++ (']' :: after))) :=
    char_eq_sp '=' (by decide) (by decide : ('[').isWhitespace = false)
  unfold alphabet
  rw [hkw]
  dsimp only
  rw [hchar]
  dsimp only
  exact list_render items after hne htok

theorem alphabet_render_nl_nil (after : List Char) :
    alphabet ('\n' :: (("alphabet = [".data) ++ (']' :: after))) =
      .ok ([([] : Str)], after) := by
  have hword : word (['\n'] ++ (("alphabet".data) ++
        ([' '] ++ ('=' :: (' ' :: ('[' :: (']' :: after))))))) =
      (("alphabet".data), '=' :: (' ' :: ('[' :: (']' :: after)))) :=
    word_append₁ (by intro c hc; simp at hc; simp [hc]) (wordTok_of_all (by rfl))
      (by intro c hc; simp at hc; simp [hc])
      (by decide : ('=').isWhitespace = false) (by decide : isWordChar '=' = false)
  have hkw : keyword ('\n' :: (("alphabet = [".data) ++ (']' :: after))) ("alphabet".data) =
      .ok ('=' :: (' ' :: ('[' :: (']' :: after)))) := by
    have h := keyword_of_word hword
    simpa using h
  have hchar : char ('=' :: (' ' :: ('[' :: (']' :: after)))) '=' =
      .ok ('[' :: (']' :: after)) :=
    char_eq_sp '=' (by decide) (by decide : ('[').isWhitespace = false)
  unfold alphabet
  rw [hkw]
  dsimp only
  rw [hchar]
  dsimp only
  exact list_render_nil after

theorem starting_state_render_nl (st : Str) (after : List Char) (hst : wordTok st)
    (hne : st ≠ []) (hafter : noWsHead after) :
    starting_state ('\n' :: (("starting_state = ".data) ++ (st ++ ('\n' :: after)))) =
      .ok (st, after) := by
  have hword : word (['\n'] ++ (("starting_state".data) ++
        ([' '] ++ ('=' :: (' ' :: (st ++ ('\n' :: after))))))) =
      (("starting_state".data), '=' :: (' ' :: (st ++ ('\n' :: after)))) :=
    word_append₁ (by intro c hc; simp at hc; simp [hc]) (wordTok_of_all (by rfl))
      (by intro c hc; simp at hc; simp [hc])
      (by decide : ('=').isWhitespace = false) (by decide : isWordChar '=' = false)
  have hkw : keyword ('\n' :: (("starting_state = ".data) ++ (st ++ ('\n' :: after))))
      ("starting_state".data) =
      .ok ('=' :: (' ' :: (st ++ ('\n' :: after)))) := by
    have h := keyword_of_word hword
    simpa using h
  have hchar : char ('=' :: (' ' :: (st ++ ('\n' :: after)))) '=' =
      .ok (whitespace (' ' :: (st ++ ('\n' :: after)))) := by
    have h := @char_split [] '=' (' ' :: (st ++ ('\n' :: after)))
      (fun c hc => by cases hc) (by decide)
    simpa using h
  have hwordst : word (' ' :: (st ++ ('\n' :: after))) = (st, after) := by
    have h := @word_append₂ [' '] st ['\n'] after
      (by intro c hc; simp at hc; simp [hc]) hst hne
      (by intro c hc; simp at hc; simp [hc]) (by simp) hafter
    simpa using h
  unfold starting_state
  rw [hkw]
  dsimp only
  rw [hchar]
  dsimp only
  rw [word_whitespace, hwordst]

theorem accepting_render (items : List Str) (after : List Char) (hne : items ≠ [])
    (htok : ∀ i ∈ items, wordTok i) :
    accepting_states
        (("accepting_states = [".data) ++ (joinSep (", ".data) items ++ (']' :: after))) =
      .ok (items, after) := by
  have hshape : ("accepting_states = [".data) ++ (joinSep (", ".data) items ++ (']' :: after)) =
      ("accepting_states".data) ++
        ([' '] ++ ('=' :: (' ' :: ('[' :: (joinSep (", ".data) items ++ (']' :: after)))))) := rfl
  have hword : word (("accepting_states".data) ++
        ([' '] ++ ('=' :: (' ' :: ('[' :: (joinSep (", ".data) items ++ (']' :: after))))))) =
      (("accepting_states".data),
        '=' :: (' ' :: ('[' :: (joinSep (", ".data) items ++ (']' :: after))))) :=
    word_append_tok_ws (wordTok_of_all (by rfl))
      (by intro c hc; simp at hc; simp [hc])
      (by decide : ('=').isWhitespace = false) (by decide : isWordChar '=' = false)
  have hkw : keyword
      (("accepting_states = [".data) ++ (joinSep (", ".data) items ++ (']' :: after)))
      ("accepting_states".data) =
      .ok ('=' :: (' ' :: ('[' :: (joinSep (", ".data) items ++ (']' :: after))))) := by
    rw [hshape]
    exact keyword_of_word hword
  have hchar : char ('=' :: (' ' :: ('[' :: (joinSep (", ".data) items ++ (']' :: after))))) '=' =
      .ok ('[' :: (joinSep (", ".data) items ++ (']' :: after))) :=
    char_eq_sp '=' (by decide) (by decide : ('[').isWhitespace = false)
  unfold accepting_states
  rw [hkw]
  dsimp only
  rw [hchar]
  dsimp only
  exact list_render items after hne htok

theorem insertTM_not_mem (m : TransMap) (k : Str × Str) (v : Str)
    (h : k ∉ m.map Prod.fst) : insertTM m k v = m ++ [(k, v)] := by
  induction m with
  | nil => rfl
  | cons e m ih =>
    simp only [List.map_cons, List.mem_cons, not_or] at h
    obtain ⟨h1, h2⟩ := h
    rw [show insertTM (e :: m) k v = if e.1 = k then (k, v) :: m else e :: insertTM m k v
        from rfl,
      if_neg (fun hc => h1 hc.symm), ih h2]
    simp

theorem foldl_insertTM_nodup : ∀ (ts : TransMap) (acc : TransMap),
    ((acc ++ ts).map Prod.fst).Nodup →
    ts.foldl (fun m e => insertTM m e.1 e.2) acc = acc ++ ts := by
  intro ts
  induction ts with
  | nil => intro acc _; simp
  | cons e ts ih =>
    intro acc h
    have hnotmem : e.1 ∉ acc.map Prod.fst := by
      rw [List.map_append] at h
      have hd := (List.nodup_append.1 h).2.2
      intro hmem
      exact hd hmem (by simp)
    simp only [List.foldl_cons]
    rw [insertTM_not_mem _ _ _ hnotmem]
    rw [ih (acc ++ [(e.1, e.2)]) (by simpa [List.append_assoc] using h)]
    simp

theorem c2_counterexample :
    (noAcceptDFA.starting_state ∈ noAcceptDFA.states ∧
     (∀ x ∈ noAcceptDFA.accepting_states, x ∈ noAcceptDFA.states) ∧
     (∀ e ∈ noAcceptDFA.transition,
       e.1.1 ∈ noAcceptDFA.states ∧ e.1.2 ∈ noAcceptDFA.alphabet ∧
         e.2 ∈ noAcceptDFA.states)) ∧
    tryFrom (intoString noAcceptDFA) =
      .error (("Accepting State  is not a valid state.\n").data) :=
  ⟨by decide, by rfl⟩

theorem tryFrom_build {code : Str} {s a : List Str × List Char} {st : Str × List Char}
    {ac : List Str × List Char} {tr : TransMap × List Char}
    (hs : states code = .ok s) (ha : alphabet s.2 = .ok a)
    (hst : starting_state a.2 = .ok st) (hac : accepting_states st.2 = .ok ac)
    (htr : transitions ac.2 = .ok tr) :
    tryFrom code = validate { states := s.1, alphabet := a.1, transition := tr.1,
                              starting_state := st.1, accepting_states := ac.1 } := by
  unfold tryFrom
  rw [hs]
  dsimp only
  rw [ha]
  dsimp only
  rw [hst]
  dsimp only
  rw [hac]
  dsimp only
  rw [htr]

/-- C2 (amended): serializing an automaton and re-parsing the result
succeeds with an identical set of transition triples, provided the
automaton is valid, its identifiers are word tokens, its starting state is
a nonempty token, its accepting-states list is nonempty, and its transition
container has pairwise distinct keys (as a hash map always does). -/
theorem c2_roundtrip_triples (d : DFA)
    (hsts : ∀ x ∈ d.states, wordTok x)
    (halphtok : ∀ x ∈ d.alphabet, wordTok x)
    (hacctok : ∀ x ∈ d.accepting_states, wordTok x)
    (htrtok : ∀ e ∈ d.transition, wordTok e.1.1 ∧ wordTok e.1.2 ∧ wordTok e.2)
    (hstart : wordTok d.starting_state) (hstartne : d.starting_state ≠ [])
    (haccne : d.accepting_states ≠ [])
    (hkeys : (d.transition.map Prod.fst).Nodup)
    (hinv1 : d.starting_state ∈ d.states)
    (hinv2 : ∀ x ∈ d.accepting_states, x ∈ d.states)
    (hinv3 : ∀ e ∈ d.transition,
      e.1.1 ∈ d.states ∧ e.1.2 ∈ d.alphabet ∧ e.2 ∈ d.states) :
    ∃ d' : DFA, tryFrom (intoString d) = .ok d' ∧
      ∀ e, e ∈ d'.transition ↔ e ∈ d.transition := by
  have hstne : d.states ≠ [] := by
    intro h
    rw [h] at hinv1
    cases hinv1
  have hfold : d.transition.foldl (fun m e => insertTM m e.1 e.2) [] = d.transition := by
    have h := foldl_insertTM_nodup d.transition [] (by simpa using hkeys)
    simpa using h
  have hdoc : intoString d =
      (("states = [".data) ++ (joinSep (", ".data) d.states ++ (']' :: ('\n' :: (("alphabet = [".data) ++ (joinSep (", ".data) d.alphabet ++ (']' :: ('\n' :: (("starting_state = ".data) ++ (d.starting_state ++ ('\n' :: (("accepting_states = [".data) ++ (joinSep (", ".data) d.accepting_states ++ (']' :: ('\n' :: (("transitions =".data) ++ ('\n' :: (joinSep ("\n".data) (d.transition.map transLineOut))))))))))))))))))) := by
    simp [intoString, joinSep, List.append_assoc]
  have h1 : states (intoString d) =
      .ok (d.states, ('\n' :: (("alphabet = [".data) ++ (joinSep (", ".data) d.alphabet ++ (']' :: ('\n' :: (("starting_state = ".data) ++ (d.starting_state ++ ('\n' :: (("accepting_states = [".data) ++ (joinSep (", ".data) d.accepting_states ++ (']' :: ('\n' :: (("transitions =".data) ++ ('\n' :: (joinSep ("\n".data) (d.transition.map transLineOut))))))))))))))))) := by
    rw [hdoc]
    exact states_render d.states _ hstne hsts
  obtain ⟨alph2, h2, halphinv⟩ :
      ∃ al, alphabet ('\n' :: (("alphabet = [".data) ++ (joinSep (", ".data) d.alphabet ++ (']' :: ('\n' :: (("starting_state = ".data) ++ (d.starting_state ++ ('\n' :: (("accepting_states = [".data) ++ (joinSep (", ".data) d.accepting_states ++ (']' :: ('\n' :: (("transitions =".data) ++ ('\n' :: (joinSep ("\n".data) (d.transition.map transLineOut)))))))))))))))) =
        .ok (al, ('\n' :: (("starting_state = ".data) ++ (d.starting_state ++ ('\n' :: (("accepting_states = [".data) ++ (joinSep (", ".data) d.accepting_states ++ (']' :: ('\n' :: (("transitions =".data) ++ ('\n' :: (joinSep ("\n".data) (d.transition.map transLineOut))))))))))))) ∧
      ∀ e ∈ d.transition, e.1.2 ∈ al := by
    by_cases halph : d.alphabet = []
    · refine ⟨[([] : Str)], ?_, ?_⟩
      · rw [halph]
        exact alphabet_render_nl_nil _
      · intro e he
        have h3 := (hinv3 e he).2.1
        rw [halph] at h3
        cases h3
    · exact ⟨d.alphabet, alphabet_render_nl d.alphabet _ halph halphtok,
        fun e he => (hinv3 e he).2.1⟩
  have h3 : starting_state ('\n' :: (("starting_state = ".data) ++ (d.starting_state ++ ('\n' :: (("accepting_states = [".data) ++ (joinSep (", ".data) d.accepting_states ++ (']' :: ('\n' :: (("transitions =".data) ++ ('\n' :: (joinSep ("\n".data) (d.transition.map transLineOut)))))))))))) =
      .ok (d.starting_state, (("accepting_states = [".data) ++ (joinSep (", ".data) d.accepting_states ++ (']' :: ('\n' :: (("transitions =".data) ++ ('\n' :: (joinSep ("\n".data) (d.transition.map transLineOut))))))))) :=
    starting_state_render_nl d.starting_state _ hstart hstartne
      (by decide : ('a').isWhitespace = false)
  have h4 : accepting_states (("accepting_states = [".data) ++ (joinSep (", ".data) d.accepting_states ++ (']' :: ('\n' :: (("transitions =".data) ++ ('\n' :: (joinSep ("\n".data) (d.transition.map transLineOut)))))))) =
      .ok (d.accepting_states, ('\n' :: (("transitions =".data) ++ ('\n' :: (joinSep ("\n".data) (d.transition.map transLineOut)))))) :=
    accepting_render d.accepting_states _ haccne hacctok
  have h5 : transitions ('\n' :: (("transitions =".data) ++ ('\n' :: (joinSep ("\n".data) (d.transition.map transLineOut))))) =
      .ok (d.transition.foldl (fun m e => insertTM m e.1 e.2) [], []) :=
    transitions_render d.transition ['\n'] (by intro c hc; simp at hc; simp [hc]) htrtok
  have hbuild := tryFrom_build h1 h2 h3 h4 h5
  have hbuild2 : tryFrom (intoString d) =
      validate { states := d.states, alphabet := alph2,
                 transition := d.transition.foldl (fun m e => insertTM m e.1 e.2) [],
                 starting_state := d.starting_state,
                 accepting_states := d.accepting_states } := hbuild
  rw [hfold] at hbuild2
  refine ⟨{ states := d.states, alphabet := alph2, transition := d.transition,
            starting_state := d.starting_state, accepting_states := d.accepting_states },
    ?_, fun e => Iff.rfl⟩
  rw [hbuild2]
  exact (validate_ok_iff _ _).2 ⟨rfl, hinv1, hinv2,
    fun e he => ⟨(hinv3 e he).1, halphinv e he, (hinv3 e he).2.2⟩⟩

theorem c2_witness :
    ∃ d' : DFA, tryFrom (intoString exampleDFA) = .ok d' ∧
      ∀ e, e ∈ d'.transition ↔ e ∈ exampleDFA.transition :=
  c2_roundtrip_triples exampleDFA (by decide) (by decide) (by decide) (by decide)
    (by decide) (by decide) (by decide) (by decide) (by decide) (by decide) (by decide)

end Automata
